import Mathlib

/-!
Verification of the SciDB-Py client against its design specification.

The development shallowly embeds the parts of the code base that the
checked properties speak about:

* `scidbpy/afl.py` — AFL expression graph: operand formatting, query
  rendering, arity checking, and result caching in `eval`.
* `scidbpy/db.py` — Shim session protocol (`DB.iquery`,
  `DB.iquery_readlines`, `DB.iquery_upload`, `DB._shim`), connection
  construction (`DB.__init__`), and the lazy `SciDB` operator nodes.
* `scidbpy/schema_utils.py` — `change_axis_schema`, `_unique`, and
  `disambiguate`.

Machine-level details that the properties do not depend on (HTTP
transport, NumPy buffers) are represented by explicit traces of protocol
calls and by abstract per-attribute encoders.
-/

/-! ## Arity checking (`afl.py`, `AFLExpression._check_arguments`)

The signature of an operator is a list of argument-kind strings; a final
entry `"args"` marks a variadic (at-least) signature, anything else an
exact one.  `check_arguments` mirrors `_check_arguments`: it returns the
data carried by the raised `TypeError` (constraint kind, required and
given counts), or `none` when no error is raised. -/

structure ArityError where
  exact : Bool
  nrequired : Nat
  ngiven : Nat
deriving DecidableEq

def sigIsExact (signature : List String) : Bool :=
  signature.getLastD "" != "args"

def sigRequired (signature : List String) : Nat :=
  signature.length - 1 + (if sigIsExact signature then 1 else 0)

def check_arguments (signature : List String) (ngiven : Nat) : Option ArityError :=
  if signature.length = 0 then none
  else if ngiven < sigRequired signature then
    some ⟨sigIsExact signature, sigRequired signature, ngiven⟩
  else none

/-! ## Lazy operator nodes (`db.py`, class `SciDB`)

A `SciDBNode` is an operator name together with its accumulated argument
list.  Arguments may be strings, booleans (the implicit
`temporary=False` third argument of `create_array`), array references,
or nested nodes, exactly the shapes `SciDB.__str__` can render. -/

mutual
inductive SciDBNode where
  | mk (op : String) (args : SDBArgs)
inductive SDBArgs where
  | nil
  | cons (a : SDBArg) (rest : SDBArgs)
inductive SDBArg where
  | strA (s : String)
  | boolA (b : Bool)
  | arrA (name : String)
  | nodeA (n : SciDBNode)
end

def SciDBNode.op : SciDBNode → String
  | .mk o _ => o

def SciDBNode.args : SciDBNode → SDBArgs
  | .mk _ a => a

def SDBArgs.append : SDBArgs → SDBArgs → SDBArgs
  | .nil, ys => ys
  | .cons a rest, ys => .cons a (SDBArgs.append rest ys)

def SDBArgs.length : SDBArgs → Nat
  | .nil => 0
  | .cons _ rest => 1 + SDBArgs.length rest

/- Rendering of one argument by Python `'{}'.format(i)`: strings verbatim,
booleans as `True`/`False`, arrays by name, nested nodes recursively. -/
mutual
def sdbArgStr : SDBArg → String
  | .strA s => s
  | .boolA true => "True"
  | .boolA false => "False"
  | .arrA name => name
  | .nodeA n => sciDBStr n
def sdbArgsJoin : SDBArgs → String
  | .nil => ""
  | .cons a .nil => sdbArgStr a
  | .cons a (.cons b rest) => sdbArgStr a ++ ", " ++ sdbArgsJoin (.cons b rest)
def sciDBStr : SciDBNode → String
  | .mk op args => op ++ "(" ++ sdbArgsJoin args ++ ")"
end

/-- Python `str.lower()` on the character sequence of a string. -/
def pyLower (s : String) : String :=
  String.mk (s.data.map Char.toLower)

/-- Python `str.startswith(pre)`. -/
def pyStartsWith (s pre : String) : Bool :=
  pre.data.isPrefixOf s.data

/-- The laziness classification of `SciDB.__init__`:
`self.operator.lower() not in ('create_array', 'remove', 'store')`. -/
def is_lazy (op : String) : Bool :=
  ! decide (pyLower op ∈ ["create_array", "remove", "store"])

inductive CallResult where
  | lazyNode (n : SciDBNode)
  | executed (query : String)

/-- The argument-list update done by `SciDB.__call__` before dispatch:
`self.args.extend(args)`, then the implicit `temporary=False` third
argument when the operator is a `create_array` variant called with
fewer than three arguments. -/
def callArgs (n : SciDBNode) (newArgs : SDBArgs) : SDBArgs :=
  let args1 := SDBArgs.append n.args newArgs
  if pyStartsWith (pyLower n.op) "create_array" && decide (args1.length < 3)
  then SDBArgs.append args1 (.cons (.boolA false) .nil)
  else args1

/-- `SciDB.__call__`: extend the argument list, default the third
`create_array` argument to `False`, then either return the node (lazy)
or execute `iquery(str(self))` (hungry). -/
def SciDB_call (n : SciDBNode) (newArgs : SDBArgs) : CallResult :=
  if is_lazy n.op then .lazyNode (.mk n.op (callArgs n newArgs))
  else .executed (sciDBStr (.mk n.op (callArgs n newArgs)))

/-- `SciDB.fetch`: lazy nodes run `iquery(str(self), fetch=True)` and
return its download; hungry nodes return `None` and run nothing.  The
result is the returned value paired with the list of queries executed. -/
def SciDB_fetch (n : SciDBNode) : Option String × List String :=
  if is_lazy n.op then (some (sciDBStr n), [sciDBStr n])
  else (none, [])

/-! ## Shim session traces (`db.py`, `DB.iquery` / `DB._shim`)

Each `DB._shim` call either succeeds or raises (through
`raise_for_status`).  An oracle `o : Nat → Bool` gives the outcome of
the i-th call of an operation; `runShim` executes a planned call
sequence until the first failure, returning the calls actually issued
and whether the whole operation succeeded. -/

inductive ShimCall where
  | new_session
  | execute_query (release : Bool)
  | read_bytes
  | release_session
  | upload
deriving DecidableEq

def runShim (o : Nat → Bool) : Nat → List ShimCall → List ShimCall × Bool
  | _, [] => ([], true)
  | i, c :: rest =>
    if o i then
      let p := runShim o (i + 1) rest
      (c :: p.1, p.2)
    else ([c], false)

/-- The shim calls `DB.iquery` makes, in order.  With `fetch=True` and a
caller-provided schema: open, execute, read, release.  With `fetch=True`
and no schema, a `show(...)` execute/read pair comes first.  With
`fetch=False`, a single execute carrying `release=1`. -/
def iqueryPlan (fetch schemaGiven : Bool) : List ShimCall :=
  if fetch then
    ShimCall.new_session ::
      ((if schemaGiven then []
        else [ShimCall.execute_query false, ShimCall.read_bytes]) ++
       [ShimCall.execute_query false, ShimCall.read_bytes,
        ShimCall.release_session])
  else [ShimCall.new_session, ShimCall.execute_query true]

def iqueryTrace (fetch schemaGiven : Bool) (o : Nat → Bool) :
    List ShimCall × Bool :=
  runShim o 0 (iqueryPlan fetch schemaGiven)

/-- The shim calls of `DB.iquery_readlines` (success path): open, execute
saving tsv, read, release. -/
def readlinesPlan : List ShimCall :=
  [ShimCall.new_session, ShimCall.execute_query false, ShimCall.read_bytes,
   ShimCall.release_session]

/-! ## Connection construction (`db.py`, `DB.__init__`) -/

inductive DBInitError where
  | scidbAuthRequiresHttps
deriving DecidableEq

structure DBConn where
  scidb_url : String
  scidbAuthStored : Option (String × String)
  httpAuthStored : Option (String × String)

/-- `DB.__init__`: store the credentials, reject SciDB credentials on a
non-https URL before anything touches the network, then load the
operator catalog with `iquery_readlines` (the first network activity).
The second component lists the shim calls issued. -/
def DB_init (scidb_url : String)
    (scidb_auth http_auth : Option (String × String)) :
    Except DBInitError DBConn × List ShimCall :=
  match scidb_auth with
  | some cred =>
    if pyStartsWith (pyLower scidb_url) "https" then
      (.ok ⟨scidb_url, some cred, http_auth⟩, readlinesPlan)
    else (.error .scidbAuthRequiresHttps, [])
  | none => (.ok ⟨scidb_url, none, http_auth⟩, readlinesPlan)

/-! ## AFL expression graph (`afl.py`)

An `AFLExpr` is an operator invocation: the operator name (the Python
class name), an optional infix token (set on `BinaryInfixAFLOperator`
subclasses, `none` on plain `AFLExpression` subclasses), the operand
list, and the cached result (`_result`), recorded by the name of the
stored `SciDBArray`.  Operands mirror the run-time type dispatch of
`_format_operand`: a Python string, a nested expression, a `SciDBArray`,
or any other value already turned into its `str(o)` text. -/

mutual
inductive AFLExpr where
  | mk (opName : String) (binOp : Option String) (args : AFLArgs)
       (cachedName : Option String)
inductive AFLArgs where
  | nil
  | cons (a : AFLOperand) (rest : AFLArgs)
inductive AFLOperand where
  | strVal (s : String)
  | exprVal (e : AFLExpr)
  | arrayVal (name : String)
  | otherVal (s : String)
end

def AFLExpr.cachedName : AFLExpr → Option String
  | .mk _ _ _ c => c

def AFLExpr.opName : AFLExpr → String
  | .mk o _ _ _ => o

/- `_format_operand` and the `query` properties.  `AFLExpression.query`
renders `name(op1,op2,...)` with `','.join`;
`BinaryInfixAFLOperator.query` unpacks exactly two operands and renders
`(l op r)`.  `_format_operand` renders strings verbatim, evaluated
expressions by their cached result name, unevaluated ones by their own
query text, arrays by name, and anything else by its `str`. -/
mutual
def formatOperand : AFLOperand → String
  | .strVal s => s
  | .exprVal (.mk _ _ _ (some n)) => n
  | .exprVal (.mk o b a none) => exprQuery (.mk o b a none)
  | .arrayVal n => n
  | .otherVal s => s
def joinOperands : AFLArgs → String
  | .nil => ""
  | .cons a .nil => formatOperand a
  | .cons a (.cons b rest) =>
    formatOperand a ++ "," ++ joinOperands (.cons b rest)
def exprQuery : AFLExpr → String
  | .mk opName none args _ => opName ++ "(" ++ joinOperands args ++ ")"
  | .mk _ (some op) (.cons l (.cons r .nil)) _ =>
    "(" ++ formatOperand l ++ " " ++ op ++ " " ++ formatOperand r ++ ")"
  | .mk opName (some _) _ _ => opName
end
-- The final arm of `exprQuery` is dead territory: an infix node with an
-- operand count other than two makes the Python tuple unpacking
-- `l, r = map(_format_operand, self.args)` raise before rendering.

/- The specification's rendering rule (§4.3 `formatQuery`), stated as
written: every node renders as `operatorName(operand1,operand2,...)`,
nested expressions by cached name when evaluated and recursively
otherwise, strings verbatim. -/
mutual
def specFormat : AFLOperand → String
  | .strVal s => s
  | .exprVal (.mk _ _ _ (some n)) => n
  | .exprVal (.mk o b a none) => specQuery (.mk o b a none)
  | .arrayVal n => n
  | .otherVal s => s
def specJoin : AFLArgs → String
  | .nil => ""
  | .cons a .nil => specFormat a
  | .cons a (.cons b rest) =>
    specFormat a ++ "," ++ specJoin (.cons b rest)
def specQuery : AFLExpr → String
  | .mk opName _ args _ => opName ++ "(" ++ specJoin args ++ ")"
end

/- `B.noInf`: no `BinaryInfixAFLOperator` node occurs anywhere in the
expression. -/
mutual
def exprNoInf : AFLExpr → Bool
  | .mk _ b args _ => b.isNone && argsNoInf args
def argsNoInf : AFLArgs → Bool
  | .nil => true
  | .cons a rest => operandNoInf a && argsNoInf rest
def operandNoInf : AFLOperand → Bool
  | .exprVal e => exprNoInf e
  | _ => true
end

/-- Result of `AFLExpression.eval`: the stored array (by name), or, when
`store=False`, the raw return of `_execute_query`. -/
inductive EvalRet where
  | arr (name : String)
  | execOut (q : String)

/-- `AFLExpression.eval(out, store)`: return the cached result untouched
if present; with `store=False` execute the bare query; otherwise pick
`out` (or a fresh auto-generated array), cache it, and execute the
wrapping `store(...)` query.  Returns the result, the node after the
call, and the list of queries sent to the database. -/
def AFLExpression_eval (e : AFLExpr) (out : Option String) (store : Bool)
    (fresh : String) : EvalRet × AFLExpr × List String :=
  match e with
  | .mk o b a (some r) => (.arr r, .mk o b a (some r), [])
  | .mk o b a none =>
    if store then
      let outName := out.getD fresh
      (.arr outName, .mk o b a (some outName),
        ["store(" ++ exprQuery (.mk o b a none) ++ ", " ++ outName ++ ")"])
    else
      (.execOut (exprQuery (.mk o b a none)), .mk o b a none,
        [exprQuery (.mk o b a none)])

/-! ## Upload encoding (`db.py`, `DB.iquery_upload`)

`values` is either a plain (unstructured-dtype) NumPy array, whose
`len(values.dtype)` is `0`, or a structured one with `nfields` named
columns.  An attribute is represented by its `tobytes` encoder alone;
`no_a` is `len(schema.atts_dtype)`, the number of attributes. -/

inductive NdValues where
  | plain (cells : List Int)
  | structured (nfields : Nat) (cells : List (List Int))

def NdValues.dtypeLen : NdValues → Nat
  | .plain _ => 0
  | .structured n _ => n

structure UAttr where
  tobytes : Int → List Nat

structure USchema where
  atts : List UAttr

/-- The acceptance test of `DB.iquery_upload`:
`no_v == 0 and no_a == 1 or no_v == no_a`. -/
def uploadAccepts (schema : USchema) (values : NdValues) : Prop :=
  values.dtypeLen = 0 ∧ schema.atts.length = 1 ∨
    values.dtypeLen = schema.atts.length

instance (schema : USchema) (values : NdValues) :
    Decidable (uploadAccepts schema values) := by
  unfold uploadAccepts
  exact inferInstance

/-- The ndarray branch of `DB.iquery_upload`: reject when the field
count and the attribute count fail the acceptance test (the raised
exception reports both counts), else concatenate, cell by cell and
attribute by attribute in schema order, each attribute's encoding of
the cell value (`cell if no_v == 0 else cell[idx]`). -/
def iquery_upload_encode (schema : USchema) (values : NdValues) :
    Except (Nat × Nat) (List Nat) :=
  if uploadAccepts schema values then
    match values with
    | .plain cells =>
      .ok (cells.flatMap fun c => schema.atts.flatMap fun a => a.tobytes c)
    | .structured _ cells =>
      .ok (cells.flatMap fun cell =>
        schema.atts.enum.flatMap fun p => p.2.tobytes (cell.getD p.1 0))
  else .error (values.dtypeLen, schema.atts.length)

/-! ## Axis modification (`schema_utils.py`, `change_axis_schema`)

Modelled from the spec: the `SciDBDataShape` record itself lives in the
repository's `scidbarray` module, which is not among the given sources;
following §3 of the specification (a Dimension carries a name, bounds,
a chunk size and a chunk overlap, and attributes carry the value type)
it is represented as parallel per-axis lists plus the attribute dtype,
which is exactly the projection `change_axis_schema` reads and rebuilds
(`shape`, `dtype`, `dim_names`, `chunk_size`, `chunk_overlap`). -/

structure SciDBDataShape where
  shape : List Nat
  dtype : String
  dim_names : List String
  chunk_size : List Nat
  chunk_overlap : List Nat
deriving DecidableEq

/-- `change_axis_schema`: refuse a `start` bound, otherwise rebuild the
datashape with the selected axis's stop (`stop + 1`), chunk size,
overlap, and name overridden where supplied. -/
def change_axis_schema (datashape : SciDBDataShape) (axis : Nat)
    (start stop chunk overlap : Option Nat) (name : Option String) :
    Except String SciDBDataShape :=
  if start.isSome then .error "start is not supported"
  else
    let stops := match stop with
      | some s => datashape.shape.set axis (s + 1)
      | none => datashape.shape
    let chunks := match chunk with
      | some c => datashape.chunk_size.set axis c
      | none => datashape.chunk_size
    let overlaps := match overlap with
      | some o => datashape.chunk_overlap.set axis o
      | none => datashape.chunk_overlap
    let names := match name with
      | some m => datashape.dim_names.set axis m
      | none => datashape.dim_names
    .ok ⟨stops, datashape.dtype, names, chunks, overlaps⟩

/-! ## Name disambiguation (`schema_utils.py`, `_unique` / `disambiguate`)

`'%s_%i' % (val, offset)` appends an underscore and the decimal
rendering of the offset; `decDigitsLE` computes the base-10 digits
(little-endian, with enough structural fuel) and `natDecimal` the
decimal string. -/

def decDigitsLE : Nat → Nat → List Nat
  | 0, _ => []
  | fuel + 1, n => if n = 0 then [] else n % 10 :: decDigitsLE fuel (n / 10)

def natDecimalChars (n : Nat) : List Char :=
  if n = 0 then ['0'] else ((decDigitsLE n n).reverse.map Nat.digitChar)

def natDecimal (n : Nat) : String :=
  String.mk (natDecimalChars n)

def suffixName (val : String) (k : Nat) : String :=
  val ++ "_" ++ natDecimal k

/-- The `while` loop of `_unique`: starting at `offset`, advance while
`'%s_%i' % (val, offset)` is taken.  The fuel `taken.length + 1` given
below always suffices (`exists_free_suffix`). -/
def searchSuffix (val : String) (taken : List String) : Nat → Nat → Nat
  | 0, off => off
  | fuel + 1, off =>
    if suffixName val off ∈ taken then searchSuffix val taken fuel (off + 1)
    else off

/-- `_unique(val, taken)`: `val` itself when it is not taken, otherwise
`val` with the first free numeric suffix, starting the search at `_2`. -/
def _unique (val : String) (taken : List String) : String :=
  if val ∈ taken then
    suffixName val (searchSuffix val taken (taken.length + 1) 2)
  else val

/-- The candidate-name computation of the `disambiguate` loop: each
visited name is replaced by `_unique(name, taken)` and the *assigned*
name is added to `taken`. -/
def assignNames : List String → List String → List String × List String
  | [], taken => ([], taken)
  | n :: rest, taken =>
    (_unique n taken :: (assignNames rest (_unique n taken :: taken)).1,
     (assignNames rest (_unique n taken :: taken)).2)

/-- An operand of `disambiguate`, abstracted to its attribute and
dimension names (the only data the renaming logic consults). -/
structure NamedArray where
  attNames : List String
  dimNames : List String
deriving DecidableEq

/-- The effect of `schema.replace('%s=' % old, '%s=' % new, 1)` inside
`_rename_dim` on the dimension-name list.  In the rendered schema text
the pattern `old=` occurs exactly where a dimension's name *ends* with
`old` (every `=` follows a dimension name, and neither bounds, chunk
parameters, the attribute section, nor the `tmp` array name contain
`=`), so the single replacement rewrites the first such dimension,
substituting `new` for the matched suffix of its name. -/
def renameDimFirst (old new : String) : List String → List String
  | [] => []
  | n :: rest =>
    if old.data.isSuffixOf n.data then
      (String.mk (n.data.take (n.data.length - old.data.length)) ++ new)
        :: rest
    else n :: renameDimFirst old new rest

/-- `_rename_dim(datashape, index, name)`: unchanged when the indexed
dimension already bears `name`; otherwise the first textual occurrence
of `oldname=` in the schema is rewritten — the source's own
`XXX doesn't work if fixing non-first duplicate dim name` — which may
rename a dimension before `index` rather than the indexed one. -/
def _rename_dim (dimNames : List String) (index : Nat) (name : String) :
    List String :=
  if dimNames.getD index "" = name then dimNames
  else renameDimFirst (dimNames.getD index "") name dimNames

/-- `_rename_att(datashape, index, name)`: unchanged when the indexed
attribute already bears `name`; otherwise the dtype rep entry at
`index` is replaced positionally (`rep[index][0] = name`). -/
def _rename_att (attNames : List String) (index : Nat) (name : String) :
    List String :=
  if attNames.getD index "" = name then attNames
  else attNames.set index name

/-- The attribute loop of `disambiguate`: candidates are drawn with
`_unique` from the array's *original* attribute names while the rename
is applied to the threaded datashape state. -/
def attLoop : List String → Nat → List String → List String →
    List String × List String
  | [], _, dsAtts, taken => (dsAtts, taken)
  | att :: rest, i, dsAtts, taken =>
    attLoop rest (i + 1) (_rename_att dsAtts i (_unique att taken))
      (_unique att taken :: taken)

/-- The dimension loop of `disambiguate`, analogous to `attLoop` but
renaming through `_rename_dim`'s first-textual-occurrence rule. -/
def dimLoop : List String → Nat → List String → List String →
    List String × List String
  | [], _, dsDims, taken => (dsDims, taken)
  | dim :: rest, i, dsDims, taken =>
    dimLoop rest (i + 1) (_rename_dim dsDims i (_unique dim taken))
      (_unique dim taken :: taken)

/-- One iteration of the array loop of `disambiguate`: attributes are
processed before dimensions, threading the `taken` set and the evolving
datashape. -/
def renameArray (a : NamedArray) (taken : List String) :
    NamedArray × List String :=
  (⟨(attLoop a.attNames 0 a.attNames taken).1,
    (dimLoop a.dimNames 0 a.dimNames (attLoop a.attNames 0 a.attNames
      taken).2).1⟩,
   (dimLoop a.dimNames 0 a.dimNames (attLoop a.attNames 0 a.attNames
     taken).2).2)

def disambiguateGo : List NamedArray → List String → List NamedArray
  | [], _ => []
  | a :: rest, taken =>
    (renameArray a taken).1 :: disambiguateGo rest (renameArray a taken).2

/-- `disambiguate`: collect every dimension and attribute name; when
they are pairwise distinct (`len(set(all_names)) == len(all_names)`)
return the operands unchanged, otherwise rename left to right with an
initially empty `taken` set. -/
def disambiguate (arrays : List NamedArray) : List NamedArray :=
  let allNames := arrays.flatMap fun a => a.dimNames ++ a.attNames
  if allNames.dedup.length = allNames.length then arrays
  else disambiguateGo arrays []

/-! ## Lemmas on decimal suffixes and `_unique` -/

def ofDigitsLE : List Nat → Nat
  | [] => 0
  | d :: ds => d + 10 * ofDigitsLE ds

theorem ofDigitsLE_decDigitsLE :
    ∀ fuel n : Nat, n ≤ fuel → ofDigitsLE (decDigitsLE fuel n) = n := by
  intro fuel
  induction fuel with
  | zero =>
    intro n h
    have : n = 0 := Nat.le_zero.mp h
    subst this
    rfl
  | succ f ih =>
    intro n h
    by_cases h0 : n = 0
    · subst h0; rfl
    · have hdiv : n / 10 ≤ f := by
        have h2 : n / 10 < n :=
          Nat.div_lt_self (Nat.pos_of_ne_zero h0) (by omega)
        omega
      simp only [decDigitsLE, h0, if_false, ofDigitsLE]
      rw [ih _ hdiv]
      omega

theorem decDigitsLE_lt :
    ∀ fuel n d : Nat, d ∈ decDigitsLE fuel n → d < 10 := by
  intro fuel
  induction fuel with
  | zero => intro n d h; simp [decDigitsLE] at h
  | succ f ih =>
    intro n d h
    by_cases h0 : n = 0
    · subst h0; simp [decDigitsLE] at h
    · simp only [decDigitsLE, h0, if_false, List.mem_cons] at h
      rcases h with h | h
      · subst h; exact Nat.mod_lt _ (by omega)
      · exact ih _ _ h

/-- Inverse of `Nat.digitChar` on decimal digits. -/
def digitVal (c : Char) : Nat := c.toNat - 48

theorem digitVal_digitChar (d : Nat) (h : d < 10) :
    digitVal (Nat.digitChar d) = d := by
  interval_cases d <;> rfl

theorem decodeChars_natDecimalChars (n : Nat) :
    ofDigitsLE ((natDecimalChars n).map digitVal).reverse = n := by
  by_cases h : n = 0
  · subst h; rfl
  · simp only [natDecimalChars, h, if_false]
    rw [List.map_map]
    have h1 : (decDigitsLE n n).reverse.map (digitVal ∘ Nat.digitChar) =
        (decDigitsLE n n).reverse.map id := by
      apply List.map_congr_left
      intro d hd
      exact digitVal_digitChar d
        (decDigitsLE_lt _ _ _ (List.mem_reverse.mp hd))
    rw [h1, List.map_id, List.reverse_reverse,
      ofDigitsLE_decDigitsLE n n le_rfl]

theorem natDecimalChars_inj {m n : Nat}
    (h : natDecimalChars m = natDecimalChars n) : m = n := by
  have := decodeChars_natDecimalChars m
  rw [h, decodeChars_natDecimalChars n] at this
  exact this.symm

theorem suffixName_inj (val : String) {a b : Nat}
    (h : suffixName val a = suffixName val b) : a = b := by
  have hd : (val ++ "_").data ++ natDecimalChars a =
      (val ++ "_").data ++ natDecimalChars b := by
    have h2 := congrArg String.data h
    simpa [suffixName, natDecimal, String.data_append] using h2
  have h3 := congrArg (List.drop (val ++ "_").data.length) hd
  rw [List.drop_left, List.drop_left] at h3
  exact natDecimalChars_inj h3

theorem exists_free_suffix (val : String) (taken : List String) :
    ∃ k, 2 ≤ k ∧ k < taken.length + 3 ∧ suffixName val k ∉ taken := by
  by_contra hcon
  push_neg at hcon
  have hsub : (Finset.range (taken.length + 1)).image
      (fun i => suffixName val (i + 2)) ⊆ taken.toFinset := by
    intro s hs
    simp only [Finset.mem_image, Finset.mem_range] at hs
    obtain ⟨i, hi, rfl⟩ := hs
    exact List.mem_toFinset.mpr (hcon _ (by omega) (by omega))
  have hinj : Function.Injective (fun i : Nat => suffixName val (i + 2)) := by
    intro a b hab
    have := suffixName_inj val hab
    omega
  have hc := Finset.card_le_card hsub
  rw [Finset.card_image_of_injective _ hinj, Finset.card_range] at hc
  have := List.toFinset_card_le taken
  omega

theorem searchSuffix_spec (val : String) (taken : List String) :
    ∀ fuel off : Nat,
      (∃ k, off ≤ k ∧ k < off + fuel ∧ suffixName val k ∉ taken) →
      suffixName val (searchSuffix val taken fuel off) ∉ taken ∧
      off ≤ searchSuffix val taken fuel off ∧
      ∀ j, off ≤ j → j < searchSuffix val taken fuel off →
        suffixName val j ∈ taken := by
  intro fuel
  induction fuel with
  | zero =>
    intro off h
    obtain ⟨k, h1, h2, _⟩ := h
    omega
  | succ f ih =>
    intro off h
    by_cases hoff : suffixName val off ∈ taken
    · obtain ⟨k, hk1, hk2, hk3⟩ := h
      have hko : k ≠ off := by
        intro he
        exact hk3 (he ▸ hoff)
      obtain ⟨ha, hb, hc⟩ := ih (off + 1) ⟨k, by omega, by omega, hk3⟩
      have hs : searchSuffix val taken (f + 1) off =
          searchSuffix val taken f (off + 1) := by
        simp [searchSuffix, hoff]
      rw [hs]
      refine ⟨ha, by omega, ?_⟩
      intro j hj1 hj2
      rcases Nat.eq_or_lt_of_le hj1 with he | hlt
      · exact he ▸ hoff
      · exact hc j hlt hj2
    · have hs : searchSuffix val taken (f + 1) off = off := by
        simp [searchSuffix, hoff]
      rw [hs]
      exact ⟨hoff, le_rfl, fun j h1 h2 => absurd (Nat.lt_of_le_of_lt h1 h2)
        (lt_irrefl _)⟩

theorem unique_not_mem (val : String) (taken : List String)
    (h : val ∉ taken) : _unique val taken = val := by
  simp [_unique, h]

theorem unique_mem (val : String) (taken : List String) (h : val ∈ taken) :
    ∃ k, 2 ≤ k ∧ _unique val taken = suffixName val k ∧
      suffixName val k ∉ taken ∧
      ∀ j, 2 ≤ j → j < k → suffixName val j ∈ taken := by
  obtain ⟨k0, h1, h2, h3⟩ := exists_free_suffix val taken
  obtain ⟨ha, hb, hc⟩ := searchSuffix_spec val taken (taken.length + 1) 2
    ⟨k0, h1, by omega, h3⟩
  exact ⟨searchSuffix val taken (taken.length + 1) 2, hb,
    by simp [_unique, h], ha, hc⟩

theorem assignNames_append (xs ys taken : List String) :
    assignNames (xs ++ ys) taken =
      ((assignNames xs taken).1 ++
        (assignNames ys (assignNames xs taken).2).1,
       (assignNames ys (assignNames xs taken).2).2) := by
  induction xs generalizing taken with
  | nil => simp [assignNames]
  | cons n rest ih => simp [assignNames, ih]

theorem strMkNil_append (s : String) : String.mk [] ++ s = s := by
  apply String.ext
  simp [String.data_append]

theorem listSet_self {α : Type} : ∀ (l : List α) (i : Nat) (d : α),
    i < l.length → l.set i (l.getD i d) = l := by
  intro l
  induction l with
  | nil =>
    intro i d h
    simp at h
  | cons a rest ih =>
    intro i d h
    cases i with
    | zero => simp
    | succ n =>
      simp only [List.getD_cons_succ, List.set]
      rw [ih n d (by simpa using h)]

theorem attLoop_taken : ∀ (orig : List String) (i : Nat)
    (ds taken : List String),
    (attLoop orig i ds taken).2 = (assignNames orig taken).2 := by
  intro orig
  induction orig with
  | nil =>
    intro i ds taken
    rfl
  | cons n rest ih =>
    intro i ds taken
    simp only [attLoop, assignNames]
    exact ih (i + 1) _ _

theorem dimLoop_taken : ∀ (orig : List String) (i : Nat)
    (ds taken : List String),
    (dimLoop orig i ds taken).2 = (assignNames orig taken).2 := by
  intro orig
  induction orig with
  | nil =>
    intro i ds taken
    rfl
  | cons n rest ih =>
    intro i ds taken
    simp only [dimLoop, assignNames]
    exact ih (i + 1) _ _

theorem renameDimFirst_positional :
    ∀ (dims : List String) (i : Nat) (name : String), i < dims.length →
      (∀ j, j < i →
        ((dims.getD i "").data.isSuffixOf (dims.getD j "").data) = false) →
      renameDimFirst (dims.getD i "") name dims = dims.set i name := by
  intro dims
  induction dims with
  | nil =>
    intro i name hi _
    simp at hi
  | cons n rest ih =>
    intro i name hi hfirst
    cases i with
    | zero =>
      simp only [List.getD_cons_zero]
      have hs : (n.data.isSuffixOf n.data) = true := by simp
      simp [renameDimFirst, hs, List.set, Nat.sub_self, List.take_zero,
        strMkNil_append]
    | succ i2 =>
      have hhead : (((n :: rest).getD (i2 + 1) "").data.isSuffixOf n.data) =
          false := by
        have := hfirst 0 (by omega)
        simpa [List.getD_cons_zero] using this
      simp only [List.getD_cons_succ] at hhead ⊢
      simp only [renameDimFirst, hhead, Bool.false_eq_true, if_false,
        List.set, List.cons.injEq, true_and]
      exact ih i2 name (by simpa using hi)
        (fun j hj => by
          have := hfirst (j + 1) (by omega)
          simpa [List.getD_cons_succ] using this)

theorem renameDimFirst_earlier_match :
    ∀ (dims : List String) (old new : String) (i j : Nat), j < i →
      (old.data.isSuffixOf (dims.getD j "").data) = true →
      (renameDimFirst old new dims).getD i "" = dims.getD i "" := by
  intro dims
  induction dims with
  | nil =>
    intro old new i j hj hm
    rfl
  | cons n rest ih =>
    intro old new i j hj hm
    by_cases hs : (old.data.isSuffixOf n.data) = true
    · cases i with
      | zero => omega
      | succ i2 => simp [renameDimFirst, hs, List.getD_cons_succ]
    · cases i with
      | zero => omega
      | succ i2 =>
        cases j with
        | zero =>
          simp only [List.getD_cons_zero] at hm
          exact absurd hm hs
        | succ j2 =>
          cases hb : old.data.isSuffixOf n.data with
          | true => exact absurd hb hs
          | false =>
            simp only [renameDimFirst, hb, Bool.false_eq_true, if_false,
              List.getD_cons_succ]
            exact ih old new i2 j2 (by omega)
              (by simpa [List.getD_cons_succ] using hm)

/-! ## Helper lemmas for rendering and upload encoding -/

mutual
theorem formatOperand_eq_spec : ∀ x : AFLOperand, operandNoInf x = true →
    formatOperand x = specFormat x
  | .strVal _, _ => rfl
  | .arrayVal _, _ => rfl
  | .otherVal _, _ => rfl
  | .exprVal (.mk _ _ _ (some _)), _ => rfl
  | .exprVal (.mk o b a none), h => by
    have hb : exprNoInf (.mk o b a none) = true := by
      simpa [operandNoInf] using h
    show exprQuery (.mk o b a none) = specQuery (.mk o b a none)
    exact exprQuery_eq_spec (.mk o b a none) hb
theorem joinOperands_eq_spec : ∀ a : AFLArgs, argsNoInf a = true →
    joinOperands a = specJoin a
  | .nil, _ => rfl
  | .cons x .nil, h => by
    have hx : operandNoInf x = true := by simpa [argsNoInf] using h
    show formatOperand x = specFormat x
    exact formatOperand_eq_spec x hx
  | .cons x (.cons y rest), h => by
    have hx : operandNoInf x = true := by
      simp only [argsNoInf, Bool.and_eq_true] at h
      exact h.1
    have hr : argsNoInf (.cons y rest) = true := by
      simp only [argsNoInf, Bool.and_eq_true] at h ⊢
      exact h.2
    show formatOperand x ++ "," ++ joinOperands (.cons y rest) =
      specFormat x ++ "," ++ specJoin (.cons y rest)
    rw [formatOperand_eq_spec x hx, joinOperands_eq_spec (.cons y rest) hr]
theorem exprQuery_eq_spec : ∀ e : AFLExpr, exprNoInf e = true →
    exprQuery e = specQuery e
  | .mk o none args c, h => by
    have ha : argsNoInf args = true := by simpa [exprNoInf] using h
    show o ++ "(" ++ joinOperands args ++ ")" = o ++ "(" ++ specJoin args ++ ")"
    rw [joinOperands_eq_spec args ha]
  | .mk o (some op) args c, h => by
    simp [exprNoInf] at h
end

/-- The number of value columns a NumPy `values` array carries: one for
a plain (unstructured) array, the field count for a structured one. -/
def valueColumns : NdValues → Nat
  | .plain _ => 1
  | .structured n _ => n

theorem enumFrom_tobytes_eq_zip (atts : List UAttr) :
    ∀ (k : Nat) (cell : List Int), (cell.drop k).length = atts.length →
      (atts.enumFrom k).flatMap (fun p => p.2.tobytes (cell.getD p.1 0)) =
        (atts.zip (cell.drop k)).flatMap (fun p => p.1.tobytes p.2) := by
  induction atts with
  | nil => intro k cell h; simp
  | cons a atts ih =>
    intro k cell h
    have hk : k < cell.length := by
      simp only [List.length_drop, List.length_cons] at h ⊢
      omega
    have hdrop : cell.drop k = cell[k] :: cell.drop (k + 1) :=
      List.drop_eq_getElem_cons hk
    have hlen : (cell.drop (k + 1)).length = atts.length := by
      simp only [List.length_drop, List.length_cons] at h ⊢
      omega
    have hgetD : cell.getD k 0 = cell[k] := by
      simp [List.getD_eq_getElem?_getD, List.getElem?_eq_getElem hk]
    rw [List.enumFrom_cons, List.flatMap_cons, hdrop, List.zip_cons_cons,
      List.flatMap_cons]
    simp only [hgetD]
    rw [ih (k + 1) cell hlen]

theorem enum_tobytes_eq_zip (atts : List UAttr) (cell : List Int)
    (h : cell.length = atts.length) :
    atts.enum.flatMap (fun p => p.2.tobytes (cell.getD p.1 0)) =
      (atts.zip cell).flatMap (fun p => p.1.tobytes p.2) := by
  have h0 : (cell.drop 0).length = atts.length := by simpa using h
  have := enumFrom_tobytes_eq_zip atts 0 cell h0
  simpa using this

theorem listGetD_set_ne {α : Type} (l : List α) (i j : Nat) (a d : α)
    (h : i ≠ j) : (l.set i a).getD j d = l.getD j d := by
  simp [List.getD_eq_getElem?_getD, List.getElem?_set_ne h]

theorem listGetD_set_self {α : Type} (l : List α) (i : Nat) (a d : α)
    (h : i < l.length) : (l.set i a).getD i d = a := by
  simp [List.getD_eq_getElem?_getD, List.getElem?_set_self, h]

/-! ## The claims -/

/-- C1 (counterexample): in `DB.iquery` with `fetch=True` and a provided
schema, when the `execute_query` shim call fails (its
`raise_for_status` raises), the operation aborts and `release_session`
is never issued: the session leaks, against the release-on-every-exit-
path claim. -/
theorem iquery_release_skipped_on_execute_failure :
    (iqueryTrace true true (fun n => n != 1)).1 =
      [ShimCall.new_session, ShimCall.execute_query false] ∧
    ShimCall.release_session ∉ (iqueryTrace true true (fun n => n != 1)).1 ∧
    (iqueryTrace true true (fun n => n != 1)).2 = false := by
  refine ⟨rfl, ?_, rfl⟩
  decide

/-- C1 (amended): `DB.iquery` issues `release_session` only on the
all-success path.  With `fetch=True` the release call is attempted
exactly when every shim call before it succeeded — a failing execute or
read skips it.  With `fetch=False` no separate release call exists at
all: release is delegated to the `release=1` flag of the single
`execute_query` call, so a failing execute again leaves the session
unreleased. -/
theorem iquery_release_only_on_success (o : Nat → Bool) :
    (ShimCall.release_session ∈ (iqueryTrace true true o).1 ↔
      o 0 = true ∧ o 1 = true ∧ o 2 = true) ∧
    (ShimCall.release_session ∈ (iqueryTrace true false o).1 ↔
      o 0 = true ∧ o 1 = true ∧ o 2 = true ∧ o 3 = true ∧ o 4 = true) ∧
    ShimCall.release_session ∉ (iqueryTrace false true o).1 ∧
    ShimCall.release_session ∉ (iqueryTrace false false o).1 ∧
    iqueryPlan false true =
      [ShimCall.new_session, ShimCall.execute_query true] := by
  cases h0 : o 0 <;> cases h1 : o 1 <;> cases h2 : o 2 <;> cases h3 : o 3 <;>
    cases h4 : o 4 <;> cases h5 : o 5 <;>
    simp [iqueryTrace, iqueryPlan, runShim, h0, h1, h2, h3, h4, h5]

theorem iquery_release_only_on_success_witness :
    ShimCall.release_session ∈ (iqueryTrace true true (fun _ => true)).1 ∧
    ShimCall.release_session ∉ (iqueryTrace false true (fun _ => true)).1 :=
  ⟨(iquery_release_only_on_success (fun _ => true)).1.mpr ⟨rfl, rfl, rfl⟩,
   (iquery_release_only_on_success (fun _ => true)).2.2.1⟩

/-- C2 (counterexample): `input` and `load` are not in the hungry set of
`SciDB.__init__`: calling an `input` node returns the unevaluated node
and executes nothing, though the claim lists `input` and `load` among
the immediately-effectful operators. -/
theorem input_and_load_are_lazy :
    is_lazy "input" = true ∧ is_lazy "load" = true ∧
    SciDB_call (.mk "input" .nil) .nil = .lazyNode (.mk "input" .nil) :=
  ⟨rfl, rfl, rfl⟩

/-- C2 (amended): the hungry set is exactly
`{create_array, remove, store}` (on the lowered operator name): calling
a node in that set executes `iquery(str(self))` immediately, and
calling any other node returns the unevaluated node with its argument
list extended, executing nothing. -/
theorem scidb_call_hungry_set (n : SciDBNode) (newArgs : SDBArgs) :
    (is_lazy n.op = false ↔
      pyLower n.op ∈ ["create_array", "remove", "store"]) ∧
    (is_lazy n.op = true →
      SciDB_call n newArgs = .lazyNode (.mk n.op (callArgs n newArgs))) ∧
    (is_lazy n.op = false →
      SciDB_call n newArgs =
        .executed (sciDBStr (.mk n.op (callArgs n newArgs)))) := by
  refine ⟨?_, ?_, ?_⟩
  · simp only [is_lazy, Bool.not_eq_false', decide_eq_true_eq]
  · intro h
    simp [SciDB_call, h]
  · intro h
    simp [SciDB_call, h]

theorem scidb_call_hungry_set_witness :
    SciDB_call (.mk "store" .nil) (.cons (.strA "foo") .nil) =
      .executed "store(foo)" ∧
    SciDB_call (.mk "apply" .nil) (.cons (.strA "x") .nil) =
      .lazyNode (.mk "apply" (.cons (.strA "x") .nil)) :=
  ⟨((scidb_call_hungry_set (.mk "store" .nil)
      (.cons (.strA "foo") .nil)).2.2 rfl).trans rfl,
   ((scidb_call_hungry_set (.mk "apply" .nil)
      (.cons (.strA "x") .nil)).2.1 rfl).trans rfl⟩

/-- C3 (counterexample): an exact-2 operator invoked with three operands
passes `_check_arguments` silently — only too-few operands are
rejected, though the claim requires more-than-N to fail for an exact-N
signature. -/
theorem arity_excess_accepted :
    sigIsExact ["item", "item"] = true ∧ sigRequired ["item", "item"] = 2 ∧
    check_arguments ["item", "item"] 3 = none :=
  ⟨by decide, by decide, by decide⟩

/-- C3 (amended): with a nonempty declared signature,
`_check_arguments` fails exactly when fewer operands are given than the
signature requires, the error reporting the constraint kind and the
required and given counts; any operand count at or above the
requirement is accepted, including more than N operands for an exact-N
signature; an empty signature disables the check entirely. -/
theorem arity_check_amended (signature : List String) (ngiven : Nat) :
    (signature = [] → check_arguments signature ngiven = none) ∧
    (signature ≠ [] → ngiven < sigRequired signature →
      check_arguments signature ngiven =
        some ⟨sigIsExact signature, sigRequired signature, ngiven⟩) ∧
    (sigRequired signature ≤ ngiven →
      check_arguments signature ngiven = none) := by
  refine ⟨?_, ?_, ?_⟩
  · intro h
    subst h
    rfl
  · intro hne hlt
    have h0 : signature.length ≠ 0 := by
      simpa [List.length_eq_zero] using hne
    simp [check_arguments, h0, hlt]
  · intro hge
    by_cases h0 : signature.length = 0
    · simp [check_arguments, h0]
    · simp [check_arguments, h0, Nat.not_lt.mpr hge]

theorem arity_check_amended_witness :
    check_arguments ["item", "args"] 0 = some ⟨false, 1, 0⟩ ∧
    check_arguments ["item", "item"] 2 = none :=
  ⟨((arity_check_amended ["item", "args"] 0).2.1 (by decide)
      (by decide)).trans (by decide),
   (arity_check_amended ["item", "item"] 2).2.2 (by decide)⟩

/-- C4 (counterexample): on operands carrying dimensions `[i]` and
`[i, i_2]`, the second operand's `i` is assigned candidate `i_2`,
making the threaded dimension list `[i_2, i_2]`; renaming its second
dimension to `i_2_2` then rewrites the *first* textual occurrence of
`i_2=` — the earlier dimension — so the program produces
`(i_2_2, i_2)`.  The later occurrence of `i` thus ends up named
`i_2_2`, which is not `i` with the lowest unused suffix (`i_2`, or
`i_3` counting the original `i_2` as taken), refuting the claimed
renaming rule. -/
theorem disambiguate_misplaces_suffix :
    disambiguate [⟨[], ["i"]⟩, ⟨[], ["i", "i_2"]⟩] =
      [⟨[], ["i"]⟩, ⟨[], ["i_2_2", "i_2"]⟩] ∧
    suffixName "i" 2 = "i_2" ∧ suffixName "i" 3 = "i_3" ∧
    ("i_2_2" : String) ≠ "i_2" ∧ ("i_2_2" : String) ≠ "i_3" ∧
    (["i", "i", "i_2"].count "i_2") = 1 :=
  ⟨rfl, rfl, rfl, by decide, by decide, by decide⟩

/-- C4 (amended): candidate names are computed by visiting each
operand's original attribute names then dimension names, operands left
to right, threading a taken set: a candidate not in the taken set is
kept, one already in it gets the smallest suffix `_2, _3, ...` not in
the taken set.  Attribute renames apply at their own position, but a
dimension rename rewrites the first dimension (in the threaded,
already-partly-renamed datashape) whose name ends with the renamed
dimension's current name — the source's XXX-flagged
first-textual-occurrence replacement — so the rename lands on the
indexed dimension only when no earlier dimension matches textually.
Composing two operands that both carry a single dimension `i` still
yields `i` and `i_2`. -/
theorem disambiguate_names_amended :
    (∀ val taken, val ∉ taken → _unique val taken = val) ∧
    (∀ val taken, val ∈ taken →
      ∃ k, 2 ≤ k ∧ _unique val taken = suffixName val k ∧
        suffixName val k ∉ taken ∧
        ∀ j, 2 ≤ j → j < k → suffixName val j ∈ taken) ∧
    (∀ (a : NamedArray) (taken : List String),
      (renameArray a taken).2 =
        (assignNames (a.attNames ++ a.dimNames) taken).2) ∧
    (∀ (dims : List String) (i : Nat) (name : String), i < dims.length →
      (∀ j, j < i →
        ((dims.getD i "").data.isSuffixOf (dims.getD j "").data) = false) →
      _rename_dim dims i name = dims.set i name) ∧
    (∀ (dims : List String) (i j : Nat) (name : String), j < i →
      dims.getD i "" ≠ name →
      ((dims.getD i "").data.isSuffixOf (dims.getD j "").data) = true →
      (_rename_dim dims i name).getD i "" = dims.getD i "") ∧
    disambiguate [⟨[], ["i"]⟩, ⟨[], ["i"]⟩] =
      [⟨[], ["i"]⟩, ⟨[], ["i_2"]⟩] := by
  refine ⟨unique_not_mem, unique_mem, ?_, ?_, ?_, rfl⟩
  · intro a taken
    simp only [renameArray, dimLoop_taken, attLoop_taken, assignNames_append]
  · intro dims i name hi hfirst
    by_cases heq : dims.getD i "" = name
    · rw [_rename_dim, if_pos heq, ← heq, listSet_self dims i "" hi]
    · rw [_rename_dim, if_neg heq]
      exact renameDimFirst_positional dims i name hi hfirst
  · intro dims i j name hj hne hm
    rw [_rename_dim, if_neg hne]
    exact renameDimFirst_earlier_match dims (dims.getD i "") name i j hj hm

theorem disambiguate_names_amended_witness :
    _unique "x" ["y"] = "x" ∧
    (∃ k, 2 ≤ k ∧ _unique "i" ["i"] = suffixName "i" k ∧
      suffixName "i" k ∉ ["i"] ∧
      ∀ j, 2 ≤ j → j < k → suffixName "i" j ∈ ["i"]) ∧
    _rename_dim ["a", "b"] 1 "c" = ["a", "c"] ∧
    (_rename_dim ["i_2", "i_2"] 1 "i_2_2").getD 1 "" = "i_2" :=
  ⟨disambiguate_names_amended.1 "x" ["y"] (by decide),
   disambiguate_names_amended.2.1 "i" ["i"] (by decide),
   (disambiguate_names_amended.2.2.2.1 ["a", "b"] 1 "c" (by decide)
      (by intro j hj; interval_cases j; decide)).trans (by decide),
   disambiguate_names_amended.2.2.2.2.1 ["i_2", "i_2"] 1 0 "i_2_2"
     (by decide) (by decide) (by decide)⟩

/-- C5: once a node carries a cached result, `eval` returns exactly the
cached handle, leaves the node unchanged, and sends no query; in
particular any `eval` following a storing `eval` is a no-op returning
the same handle. -/
theorem afl_eval_cached_noop (e : AFLExpr) (out : Option String)
    (store : Bool) (fresh : String) (out2 : Option String) (store2 : Bool)
    (fresh2 : String) :
    (∀ r, e.cachedName = some r →
      AFLExpression_eval e out store fresh = (.arr r, e, [])) ∧
    AFLExpression_eval (AFLExpression_eval e out true fresh).2.1 out2 store2
        fresh2 =
      ((AFLExpression_eval e out true fresh).1,
       (AFLExpression_eval e out true fresh).2.1, []) := by
  obtain ⟨o, b, a, c⟩ := e
  constructor
  · intro r hr
    cases c with
    | none => simp [AFLExpr.cachedName] at hr
    | some x =>
      simp only [AFLExpr.cachedName, Option.some.injEq] at hr
      subst hr
      rfl
  · cases c with
    | none => rfl
    | some x => rfl

theorem afl_eval_cached_noop_witness :
    AFLExpression_eval (.mk "scan" none .nil (some "A")) none true "tmp" =
      (.arr "A", .mk "scan" none .nil (some "A"), []) :=
  (afl_eval_cached_noop (.mk "scan" none .nil (some "A")) none true "tmp"
    none true "tmp").1 "A" rfl

/-- C6: with at least one attribute in the schema, the ndarray branch of
`iquery_upload` rejects exactly a value-column count different from the
attribute count — except an unstructured single column against a
one-attribute schema — the raised error reporting both counts; on
acceptance the cells are encoded attribute by attribute in schema
order. -/
theorem upload_count_check (schema : USchema) (v : NdValues)
    (hatts : 1 ≤ schema.atts.length) :
    ((∃ e, iquery_upload_encode schema v = .error e) ↔
      valueColumns v ≠ schema.atts.length ∧
        ¬ (v.dtypeLen = 0 ∧ schema.atts.length = 1)) ∧
    (∀ no_v no_a, iquery_upload_encode schema v = .error (no_v, no_a) →
      no_v = v.dtypeLen ∧ no_a = schema.atts.length) ∧
    (∀ cells, v = .structured schema.atts.length cells →
      (∀ cell ∈ cells, cell.length = schema.atts.length) →
      iquery_upload_encode schema v =
        .ok (cells.flatMap fun cell =>
          (schema.atts.zip cell).flatMap fun p => p.1.tobytes p.2)) := by
  refine ⟨?_, ?_, ?_⟩
  · simp only [iquery_upload_encode]
    split_ifs with h
    · refine iff_of_false ?_ ?_
      · rintro ⟨e, he⟩
        rcases v with cells | ⟨n, cells⟩ <;> simp at he
      · unfold uploadAccepts at h
        rcases v with cells | ⟨n, cells⟩ <;>
          simp only [valueColumns, NdValues.dtypeLen, eq_self_iff_true,
            true_and, and_true] at h ⊢ <;> omega
    · refine iff_of_true ⟨(v.dtypeLen, schema.atts.length), rfl⟩ ?_
      unfold uploadAccepts at h
      rcases v with cells | ⟨n, cells⟩ <;>
        simp only [valueColumns, NdValues.dtypeLen, eq_self_iff_true,
          true_and, and_true] at h ⊢ <;> omega
  · intro no_v no_a h
    simp only [iquery_upload_encode] at h
    split_ifs at h with hcnd
    · exfalso
      rcases v with cells | ⟨n, cells⟩ <;> simp at h
    · simp only [Except.error.injEq, Prod.mk.injEq] at h
      exact ⟨h.1.symm, h.2.symm⟩
  · intro cells hv hlen
    subst hv
    have henc : iquery_upload_encode schema
        (.structured schema.atts.length cells) =
        .ok (cells.flatMap fun cell =>
          schema.atts.enum.flatMap fun p => p.2.tobytes (cell.getD p.1 0)) := by
      simp only [iquery_upload_encode]
      split_ifs with h
      · rfl
      · exact absurd (Or.inr rfl) h
    rw [henc, Except.ok.injEq]
    clear henc
    induction cells with
    | nil => rfl
    | cons c cs ih =>
      simp only [List.flatMap_cons]
      rw [enum_tobytes_eq_zip schema.atts c (hlen c (by simp)),
        ih (fun cell hm => hlen cell (by simp [hm]))]

theorem upload_count_check_witness :
    (∃ e, iquery_upload_encode ⟨[⟨fun v => [v.toNat]⟩]⟩
      (.structured 2 []) = .error e) ∧
    iquery_upload_encode ⟨[⟨fun v => [v.toNat]⟩]⟩ (.structured 1 [[7]]) =
      .ok [7] :=
  ⟨(upload_count_check ⟨[⟨fun v => [v.toNat]⟩]⟩ (.structured 2 [])
      (by simp)).1.mpr ⟨by simp [valueColumns], by simp [NdValues.dtypeLen]⟩,
   ((upload_count_check ⟨[⟨fun v => [v.toNat]⟩]⟩ (.structured 1 [[7]])
      (by simp)).2.2 [[7]] rfl (by simp)).trans rfl⟩

/-- C7: database-level credentials on a non-https URL make `DB.__init__`
raise before any shim call is issued; on an https URL construction
accepts and stores the credentials, the operator-catalog load being the
first network activity. -/
theorem db_init_scidb_auth_https (url : String) (cred : String × String)
    (hauth : Option (String × String)) :
    (pyStartsWith (pyLower url) "https" = false →
      DB_init url (some cred) hauth = (.error .scidbAuthRequiresHttps, [])) ∧
    (pyStartsWith (pyLower url) "https" = true →
      DB_init url (some cred) hauth =
        (.ok ⟨url, some cred, hauth⟩, readlinesPlan)) := by
  constructor
  · intro h
    simp [DB_init, h]
  · intro h
    simp [DB_init, h]

theorem db_init_scidb_auth_https_witness :
    DB_init "http://localhost:8080" (some ("u", "p")) none =
      (.error .scidbAuthRequiresHttps, []) ∧
    DB_init "https://localhost:8083" (some ("u", "p")) none =
      (.ok ⟨"https://localhost:8083", some ("u", "p"), none⟩,
        readlinesPlan) :=
  ⟨(db_init_scidb_auth_https "http://localhost:8080" ("u", "p") none).1
      (by decide),
   (db_init_scidb_auth_https "https://localhost:8083" ("u", "p") none).2
      (by decide)⟩

/-- C8 (counterexample): the binary-infix node `add(X, 5)` renders as
`(X + 5)`, not in the `operatorName(operand, ...)` form the claim
prescribes for every expression node. -/
theorem infix_render_not_function_style :
    exprQuery (.mk "add" (some "+")
      (.cons (.arrayVal "X") (.cons (.otherVal "5") .nil)) none) =
      "(X + 5)" ∧
    specQuery (.mk "add" (some "+")
      (.cons (.arrayVal "X") (.cons (.otherVal "5") .nil)) none) =
      "add(X,5)" ∧
    ("(X + 5)" : String) ≠ "add(X,5)" :=
  ⟨rfl, rfl, by decide⟩

/-- C8 (amended): plain function-style nodes render
`operatorName(operand1,operand2,...)` with each operand formatted by
cached result name when evaluated, its recursive query text otherwise,
array references by name, and string literals verbatim, unquoted; an
expression containing no binary-infix node renders exactly as the
specification's rule states, while a binary-infix node renders
`(left op right)`. -/
theorem render_query_amended (e : AFLExpr) :
    (∀ o args c, e = .mk o none args c →
      exprQuery e = o ++ "(" ++ joinOperands args ++ ")") ∧
    (∀ s, formatOperand (.strVal s) = s) ∧
    (∀ nm, formatOperand (.arrayVal nm) = nm) ∧
    (∀ o2 b2 a2 nm, formatOperand (.exprVal (.mk o2 b2 a2 (some nm))) = nm) ∧
    (∀ o2 op l r c,
      exprQuery (.mk o2 (some op) (.cons l (.cons r .nil)) c) =
        "(" ++ formatOperand l ++ " " ++ op ++ " " ++ formatOperand r ++
          ")") ∧
    (exprNoInf e = true → exprQuery e = specQuery e) := by
  refine ⟨?_, fun s => rfl, fun nm => rfl, fun o2 b2 a2 nm => rfl,
    fun o2 op l r c => rfl, exprQuery_eq_spec e⟩
  intro o args c he
  subst he
  rfl

theorem render_query_amended_witness :
    exprQuery (.mk "scan" none (.cons (.arrayVal "foo") .nil) none) =
      "scan" ++ "(" ++ joinOperands (.cons (.arrayVal "foo") .nil) ++ ")" ∧
    exprQuery (.mk "scan" none (.cons (.arrayVal "foo") .nil) none) =
      specQuery (.mk "scan" none (.cons (.arrayVal "foo") .nil) none) :=
  ⟨(render_query_amended (.mk "scan" none
      (.cons (.arrayVal "foo") .nil) none)).1 "scan" _ none rfl,
   (render_query_amended (.mk "scan" none
      (.cons (.arrayVal "foo") .nil) none)).2.2.2.2.2 rfl⟩

/-- C9: `fetch` on a node whose lowered operator name is among
`create_array`, `remove`, `store` returns `None` and executes nothing;
on any other node it executes `iquery(str(self), fetch=True)` and
returns the download. -/
theorem scidb_fetch_hungry_none (n : SciDBNode) :
    (pyLower n.op ∈ ["create_array", "remove", "store"] →
      SciDB_fetch n = (none, [])) ∧
    (pyLower n.op ∉ ["create_array", "remove", "store"] →
      SciDB_fetch n = (some (sciDBStr n), [sciDBStr n])) := by
  constructor
  · intro h
    have hl : is_lazy n.op = false := by simp [is_lazy, h]
    simp [SciDB_fetch, hl]
  · intro h
    have hl : is_lazy n.op = true := by simp [is_lazy, h]
    simp [SciDB_fetch, hl]

theorem scidb_fetch_hungry_none_witness :
    SciDB_fetch (.mk "store" .nil) = (none, []) ∧
    SciDB_fetch (.mk "scan" .nil) =
      (some (sciDBStr (.mk "scan" .nil)), [sciDBStr (.mk "scan" .nil)]) :=
  ⟨(scidb_fetch_hungry_none (.mk "store" .nil)).1 (by decide),
   (scidb_fetch_hungry_none (.mk "scan" .nil)).2 (by decide)⟩

/-- C10: `change_axis_schema` raises `NotImplementedError` whenever a
start bound is supplied and returns nothing; otherwise the result keeps
the attribute dtype and, on every axis other than the selected one, the
dimension name, upper bound, chunk size and chunk overlap, while a
supplied stop `s` sets the selected axis's extent to `s + 1`. -/
theorem change_axis_schema_spec (ds : SciDBDataShape) (axis : Nat)
    (start stop chunk overlap : Option Nat) (name : Option String) :
    (start.isSome = true →
      change_axis_schema ds axis start stop chunk overlap name =
        .error "start is not supported") ∧
    (∀ r, change_axis_schema ds axis none stop chunk overlap name = .ok r →
      r.dtype = ds.dtype ∧
      (∀ j, j ≠ axis →
        r.dim_names.getD j "" = ds.dim_names.getD j "" ∧
        r.shape.getD j 0 = ds.shape.getD j 0 ∧
        r.chunk_size.getD j 0 = ds.chunk_size.getD j 0 ∧
        r.chunk_overlap.getD j 0 = ds.chunk_overlap.getD j 0) ∧
      (∀ s, stop = some s → axis < ds.shape.length →
        r.shape.getD axis 0 = s + 1)) := by
  constructor
  · intro h
    cases start with
    | none => simp at h
    | some s0 => rfl
  · intro r hr
    rcases stop with _ | s <;> rcases chunk with _ | c <;>
      rcases overlap with _ | ov <;> rcases name with _ | m <;>
      (injection hr with h2
       subst h2
       refine ⟨rfl, fun j hj => ⟨?_, ?_, ?_, ?_⟩, fun s2 hs hlt => ?_⟩ <;>
         first
           | rfl
           | exact listGetD_set_ne _ axis j _ _ (fun he => hj he.symm)
           | exact Option.noConfusion hs
           | (obtain rfl := Option.some.inj hs
              exact listGetD_set_self ds.shape axis _ 0 hlt))

theorem change_axis_schema_spec_witness :
    change_axis_schema ⟨[3, 4], "int64", ["i", "j"], [1000, 1000], [0, 0]⟩ 0
        (some 1) none none none none = .error "start is not supported" ∧
    (⟨[6, 4], "int64", ["i", "j"], [1000, 1000], [0, 0]⟩ :
        SciDBDataShape).shape.getD 0 0 = 5 + 1 :=
  ⟨(change_axis_schema_spec
      ⟨[3, 4], "int64", ["i", "j"], [1000, 1000], [0, 0]⟩ 0
      (some 1) none none none none).1 rfl,
   ((change_axis_schema_spec
      ⟨[3, 4], "int64", ["i", "j"], [1000, 1000], [0, 0]⟩ 0
      none (some 5) none none none).2
      ⟨[6, 4], "int64", ["i", "j"], [1000, 1000], [0, 0]⟩ rfl).2.2 5 rfl
      (by decide)⟩
